import Mathlib

/-!
Verification of the OPC-UA console client's core logic: the address-space
walker (`collect_items`), the string-to-variant converter
(`_convert_string_to_variant`), the method-call helper (`call_method`), the
grouping function (`_group_by_child`) and the session lifecycle
(`disconnect`).  Remote nodes are embedded as finite trees whose fields
record whether the per-node metadata reads and the child enumeration
succeed; every remote read that the Python code performs with a
`try/except` is modelled by consulting those fields.
-/

set_option maxRecDepth 4096

namespace Opcua

/-- The `ua.NodeClass` enumeration of the asyncua library. -/
inductive NodeClass where
  | Unspecified
  | Object
  | Variable
  | Method
  | ObjectType
  | VariableType
  | ReferenceType
  | DataType
  | View
deriving DecidableEq, Repr

/-- One node of the remote server's address space, as seen by the client:
`node_class` and `dispText` are what `read_node_class` / `read_display_name`
would return, `readOk` is false when either of those two reads raises,
`childrenOk` is false when `get_children` raises, and `children` are the
nodes `get_children` returns.  `nodeid` stands for `str(node.nodeid)` and
doubles as the node's handle identity. -/
inductive RNode : Type where
  | mk (node_class : NodeClass) (dispText : Option String) (nodeid : String)
       (readOk : Bool) (childrenOk : Bool) (children : List RNode) : RNode

def RNode.node_class : RNode → NodeClass
  | .mk c _ _ _ _ _ => c

def RNode.dispText : RNode → Option String
  | .mk _ d _ _ _ _ => d

def RNode.nodeid : RNode → String
  | .mk _ _ i _ _ _ => i

def RNode.readOk : RNode → Bool
  | .mk _ _ _ r _ _ => r

def RNode.childrenOk : RNode → Bool
  | .mk _ _ _ _ c _ => c

def RNode.children : RNode → List RNode
  | .mk _ _ _ _ _ ch => ch

/-- Display name: `name = disp.Text or str(node.nodeid)`; Python's `or` falls back to the
node id both when `Text` is `None` and when it is the empty string. -/
def RNode.displayName (n : RNode) : String :=
  match n.dispText with
  | none => n.nodeid
  | some t => if t = "" then n.nodeid else t

/-- The dataclass `NodeEntry(node, node_class, path, parent_object)`;
node handles are represented by their id strings. -/
structure NodeEntry where
  node : String
  node_class : NodeClass
  path : List String
  parent_object : Option String
deriving DecidableEq, Repr

/-- The membership test `node_class in (Object, Variable, Method)`. -/
def menuClass (c : NodeClass) : Bool :=
  match c with
  | .Object | .Variable | .Method => true
  | _ => false

/-- One element of the explicit work stack: `(node, path, parent_obj)`. -/
abbrev StackItem := RNode × List String × Option String

mutual

/-- Number of nodes of a tree, the termination measure of the walk. -/
def RNode.size : RNode → Nat
  | .mk _ _ _ _ _ ch => 1 + sizeChildren ch

/-- Total number of nodes of a list of trees. -/
def sizeChildren : List RNode → Nat
  | [] => 0
  | c :: cs => RNode.size c + sizeChildren cs

end

/-- Weight of a work stack: total size of the trees still to be visited. -/
def stackWeight (stack : List StackItem) : Nat :=
  (stack.map fun t => t.1.size).sum

theorem sizeChildren_eq_sum (l : List RNode) : sizeChildren l = (l.map RNode.size).sum := by
  induction l with
  | nil => simp [sizeChildren]
  | cons c cs ih => simp [sizeChildren, ih]

theorem children_weight_lt (n : RNode) : ((n.children).map RNode.size).sum < n.size := by
  cases n with
  | mk c d i r co ch =>
    simp [RNode.children, RNode.size, sizeChildren_eq_sum]

theorem stackWeight_append (xs ys : List StackItem) :
    stackWeight (xs ++ ys) = stackWeight xs + stackWeight ys := by
  simp [stackWeight]

theorem stackWeight_cons (n : RNode) (p : List String) (par : Option String)
    (rest : List StackItem) :
    stackWeight ((n, p, par) :: rest) = n.size + stackWeight rest := by
  simp [stackWeight]

theorem stackWeight_pushed (kids : List RNode) (p : List String) (par : Option String) :
    stackWeight ((kids.map fun c => (c, p, par)).reverse) = (kids.map RNode.size).sum := by
  simp only [stackWeight, List.map_reverse, List.sum_reverse, List.map_map, Function.comp_def]

theorem rnode_size_pos (n : RNode) : 0 < n.size := by
  cases n with
  | mk c d i r co ch => simp [RNode.size]

/-- The body of the `while stack:` loop of `collect_items`: pop a node, skip
it (with its whole subtree) when its metadata reads fail, otherwise append
its entry when its class is Object/Variable/Method and push its children
(an enumeration failure counts as zero children).  The accumulated list is
the unsorted `items`. -/
def collectLoop : List StackItem → List NodeEntry → List NodeEntry
  | [], acc => acc
  | (n, p, par) :: rest, acc =>
    if n.readOk then
      collectLoop
        (((if n.childrenOk then n.children else []).map
            (fun c => (c, p ++ [n.displayName],
              if n.node_class = NodeClass.Object then some n.nodeid else par))).reverse ++ rest)
        (if menuClass n.node_class
         then acc ++ [⟨n.nodeid, n.node_class, p ++ [n.displayName], par⟩]
         else acc)
    else collectLoop rest acc
termination_by stack _ => stackWeight stack
decreasing_by
  · rw [stackWeight_append, stackWeight_pushed, stackWeight_cons]
    have h2 := children_weight_lt n
    have h3 := rnode_size_pos n
    by_cases hc : n.childrenOk = true <;> simp only [hc, if_true, if_false] <;> simp <;> omega
  · rw [stackWeight_cons]
    have := rnode_size_pos n
    omega

/-- Sort key of an entry: `"/".join(e.path).lower()`, represented as its
sequence of code points (Python compares strings pointwise by code point,
which is exactly the lexicographic order on these lists). -/
def sortKey (e : NodeEntry) : List Char :=
  (List.intercalate ['/'] (e.path.map String.data)).map Char.toLower

/-- The comparison the final `items.sort(key=...)` sorts by. -/
def entryLE (a b : NodeEntry) : Prop := sortKey a ≤ sortKey b

instance : DecidableRel entryLE := fun a b =>
  inferInstanceAs (Decidable (sortKey a ≤ sortKey b))

instance : IsTotal NodeEntry entryLE := ⟨fun a b => le_total (sortKey a) (sortKey b)⟩

instance : IsTrans NodeEntry entryLE := ⟨fun _ _ _ hab hbc => le_trans hab hbc⟩

/-- The walker `collect_items`: walk the address space from `root` with an explicit
stack and return the entries sorted (stably) by the case-insensitive
joined path; Python's stable `list.sort` is modelled by insertion sort,
which computes the same output as any stable sort for this key. -/
def collect_items (root : RNode) : List NodeEntry :=
  List.insertionSort entryLE (collectLoop [(root, [], none)] [])

/-- Unfolding of one loop iteration on a readable node, with the record
fields of the popped node exposed. -/
theorem collectLoop_step (c : NodeClass) (d : Option String) (i : String)
    (cOk : Bool) (ch : List RNode) (p : List String) (par : Option String)
    (rest : List StackItem) (acc : List NodeEntry) :
    collectLoop ((RNode.mk c d i true cOk ch, p, par) :: rest) acc
      = collectLoop
          (((if cOk then ch else []).map
              (fun x => (x, p ++ [(RNode.mk c d i true cOk ch).displayName],
                if c = NodeClass.Object then some i else par))).reverse ++ rest)
          (if menuClass c
           then acc ++ [⟨i, c, p ++ [(RNode.mk c d i true cOk ch).displayName], par⟩]
           else acc) := by
  rw [collectLoop]
  simp only [RNode.readOk, RNode.childrenOk, RNode.children, RNode.node_class, RNode.nodeid,
    if_true]

/-- One loop iteration on a node whose metadata read fails: the node is
dropped and nothing is pushed. -/
theorem collectLoop_skip (t : RNode) (p : List String) (par : Option String)
    (rest : List StackItem) (acc : List NodeEntry) (h : t.readOk = false) :
    collectLoop ((t, p, par) :: rest) acc = collectLoop rest acc := by
  rw [collectLoop, h]
  simp

/-- The loop handles the work stack segment by segment: running it on
`s1 ++ s2` first exhausts `s1` (and everything `s1` pushes), then `s2`. -/
theorem collectLoop_append (s1 : List StackItem) (acc : List NodeEntry) :
    ∀ s2 : List StackItem,
      collectLoop (s1 ++ s2) acc = collectLoop s2 (collectLoop s1 acc) := by
  induction s1, acc using collectLoop.induct with
  | case1 acc => intro s2; rw [List.nil_append, collectLoop]
  | case2 n p par rest acc hr ih =>
    intro s2
    rw [List.cons_append, collectLoop, collectLoop]
    simp only [hr, if_true]
    simp only [dite_eq_ite, List.append_assoc] at ih
    exact ih s2
  | case3 n p par rest acc hr ih =>
    intro s2
    rw [List.cons_append, collectLoop, collectLoop]
    simp only [hr]
    simp only [Bool.false_eq_true, if_false]
    exact ih s2

/-- C1: the walker's result is sorted ascending by the case-insensitive
joined path, and re-running it on the same graph gives the same list. -/
theorem collect_items_sorted_deterministic (g : RNode) :
    List.Sorted entryLE (collect_items g) ∧ collect_items g = collect_items g :=
  ⟨List.sorted_insertionSort entryLE _, rfl⟩

/-- A node whose metadata read fails contributes nothing, wherever it sits
in the work stack, and the rest of the walk is unchanged. -/
theorem collectLoop_drop_unreadable (s1 s2 : List StackItem) (acc : List NodeEntry)
    (t : RNode) (p : List String) (par : Option String) (h : t.readOk = false) :
    collectLoop (s1 ++ (t, p, par) :: s2) acc = collectLoop (s1 ++ s2) acc := by
  rw [collectLoop_append, collectLoop_skip _ _ _ _ _ h, ← collectLoop_append]

/-- Deleting an unreadable child subtree from the graph does not change the
walker's output. -/
theorem collect_items_remove_unreadable_child (c : NodeClass) (d : Option String)
    (i : String) (cOk : Bool) (ch1 ch2 : List RNode) (t : RNode)
    (h : t.readOk = false) :
    collect_items (.mk c d i true cOk (ch1 ++ t :: ch2))
      = collect_items (.mk c d i true cOk (ch1 ++ ch2)) := by
  unfold collect_items
  rw [collectLoop_step, collectLoop_step]
  cases cOk with
  | false => simp [RNode.displayName, RNode.dispText, RNode.nodeid]
  | true =>
    simp only [if_true]
    congr 1
    simp only [RNode.displayName, RNode.dispText, RNode.nodeid, List.map_append,
      List.map_cons, List.reverse_append, List.reverse_cons, List.append_nil,
      List.append_assoc, List.singleton_append]
    exact collectLoop_drop_unreadable _ _ _ t _ _ h

/-- A node whose child enumeration fails keeps its own entry (when its
class is shown in the menu) and yields no descendants. -/
theorem collect_items_children_failure (c : NodeClass) (d : Option String) (i : String)
    (ch : List RNode) :
    collect_items (.mk c d i true false ch)
      = if menuClass c
        then [⟨i, c, [(RNode.mk c d i true false ch).displayName], none⟩]
        else [] := by
  unfold collect_items
  rw [collectLoop_step]
  cases hm : menuClass c <;>
    simp [hm, collectLoop, List.insertionSort, List.orderedInsert]

/-- In any position of the walk, a readable node whose child enumeration
fails contributes its own entry (when of a menu class) and pushes no
children at all. -/
theorem collectLoop_children_failure (c : NodeClass) (d : Option String) (i : String)
    (ch : List RNode) (p : List String) (par : Option String)
    (rest : List StackItem) (acc : List NodeEntry) :
    collectLoop ((RNode.mk c d i true false ch, p, par) :: rest) acc
      = collectLoop rest
          (if menuClass c
           then acc ++ [⟨i, c, p ++ [(RNode.mk c d i true false ch).displayName], par⟩]
           else acc) := by
  rw [collectLoop_step]
  simp

/-- A traversal rooted at an unreadable node yields no entries at all. -/
theorem collect_items_unreadable_root (g : RNode) (h : g.readOk = false) :
    collect_items g = [] := by
  unfold collect_items
  rw [collectLoop_skip _ _ _ _ _ h]
  simp [collectLoop, List.insertionSort]

/-- C2: the walk never fails as a whole.  A node whose kind/display-name
read fails is dropped with all its descendants while every other node is
still processed (deleting such a subtree leaves the result unchanged); a
node whose child enumeration fails keeps its own entry but contributes no
descendants; a walk from an unreadable root returns the empty list. -/
theorem walk_partial_failure_policy :
    (∀ (s1 s2 : List StackItem) (acc : List NodeEntry) (t : RNode) (p : List String)
        (par : Option String), t.readOk = false →
        collectLoop (s1 ++ (t, p, par) :: s2) acc = collectLoop (s1 ++ s2) acc)
    ∧ (∀ (c : NodeClass) (d : Option String) (i : String) (cOk : Bool)
        (ch1 ch2 : List RNode) (t : RNode), t.readOk = false →
        collect_items (.mk c d i true cOk (ch1 ++ t :: ch2))
          = collect_items (.mk c d i true cOk (ch1 ++ ch2)))
    ∧ (∀ (c : NodeClass) (d : Option String) (i : String) (ch : List RNode)
        (p : List String) (par : Option String) (rest : List StackItem)
        (acc : List NodeEntry),
        collectLoop ((RNode.mk c d i true false ch, p, par) :: rest) acc
          = collectLoop rest
              (if menuClass c
               then acc ++ [⟨i, c, p ++ [(RNode.mk c d i true false ch).displayName], par⟩]
               else acc))
    ∧ (∀ (c : NodeClass) (d : Option String) (i : String) (ch : List RNode),
        collect_items (.mk c d i true false ch)
          = if menuClass c
            then [⟨i, c, [(RNode.mk c d i true false ch).displayName], none⟩]
            else [])
    ∧ (∀ g : RNode, g.readOk = false → collect_items g = []) :=
  ⟨fun s1 s2 acc t p par h => collectLoop_drop_unreadable s1 s2 acc t p par h,
   fun c d i cOk ch1 ch2 t h => collect_items_remove_unreadable_child c d i cOk ch1 ch2 t h,
   fun c d i ch p par rest acc => collectLoop_children_failure c d i ch p par rest acc,
   fun c d i ch => collect_items_children_failure c d i ch,
   fun g h => collect_items_unreadable_root g h⟩

/-- Invariant propagation through the loop: if `Q` holds of every pending
stack item, `P` holds of every accumulated entry, and processing a `Q`
item yields a `P` entry and `Q` children, then every entry the loop
returns satisfies `P`. -/
theorem collectLoop_invariant (P : NodeEntry → Prop) (Q : StackItem → Prop)
    (step : ∀ n p par, Q (n, p, par) → n.readOk = true →
        (menuClass n.node_class = true →
          P ⟨n.nodeid, n.node_class, p ++ [n.displayName], par⟩)
        ∧ ∀ c ∈ n.children, n.childrenOk = true →
            Q (c, p ++ [n.displayName],
               if n.node_class = NodeClass.Object then some n.nodeid else par)) :
    ∀ stack acc, (∀ it ∈ stack, Q it) → (∀ e ∈ acc, P e) →
      ∀ e ∈ collectLoop stack acc, P e := by
  intro stack acc
  induction stack, acc using collectLoop.induct with
  | case1 acc =>
    intro _ hP e he
    rw [collectLoop] at he
    exact hP e he
  | case2 n p par rest acc hr ih =>
    intro hQ hP e he
    rw [collectLoop] at he
    simp only [hr, if_true] at he
    simp only [dite_eq_ite] at ih
    have hstep := step n p par (hQ _ (List.mem_cons_self _ _)) hr
    refine ih ?_ ?_ e he
    · intro it hit
      rcases List.mem_append.1 hit with hmem | hmem
      · rcases List.mem_map.1 (List.mem_reverse.1 hmem) with ⟨c, hc, rfl⟩
        by_cases hco : n.childrenOk = true
        · exact hstep.2 c (by simpa [hco] using hc) hco
        · simp [hco] at hc
      · exact hQ _ (List.mem_cons_of_mem _ hmem)
    · intro e' he'
      by_cases hm : menuClass n.node_class = true
      · simp only [hm, if_true] at he'
        rcases List.mem_append.1 he' with hmem | hmem
        · exact hP _ hmem
        · rcases List.mem_singleton.1 hmem with rfl
          exact hstep.1 hm
      · simp only [hm] at he'
        simp at he'
        exact hP _ he'
  | case3 n p par rest acc hr ih =>
    intro hQ hP e he
    rw [collectLoop] at he
    simp only [hr] at he
    simp only [Bool.false_eq_true, if_false] at he
    exact ih (fun it hit => hQ _ (List.mem_cons_of_mem _ hit)) hP e he

/-- The loop only ever appends: the accumulator is a prefix of the result. -/
theorem collectLoop_acc_prefix :
    ∀ stack acc, ∃ tail, collectLoop stack acc = acc ++ tail := by
  intro stack acc
  induction stack, acc using collectLoop.induct with
  | case1 acc => exact ⟨[], by rw [collectLoop]; simp⟩
  | case2 n p par rest acc hr ih =>
    simp only [dite_eq_ite] at ih
    obtain ⟨tail, ht⟩ := ih
    rw [collectLoop]
    simp only [hr, if_true]
    rw [ht]
    by_cases hm : menuClass n.node_class = true
    · simp only [hm, if_true]
      exact ⟨_, by rw [List.append_assoc]⟩
    · simp only [hm]
      simp only [Bool.false_eq_true, if_false]
      exact ⟨tail, rfl⟩
  | case3 n p par rest acc hr ih =>
    obtain ⟨tail, ht⟩ := ih
    rw [collectLoop]
    simp only [hr, Bool.false_eq_true, if_false]
    exact ⟨tail, ht⟩

/-- Unfolding of the first iteration of a walk from a readable root. -/
theorem collectLoop_start (g : RNode) (hr : g.readOk = true) :
    collectLoop [(g, [], none)] []
      = collectLoop
          (((if g.childrenOk then g.children else []).map
              (fun c => (c, [g.displayName],
                if g.node_class = NodeClass.Object then some g.nodeid else none))).reverse)
          (if menuClass g.node_class
           then [⟨g.nodeid, g.node_class, [g.displayName], none⟩]
           else []) := by
  rw [collectLoop]
  simp [hr]

/-- Reachability `Reach g p n`: from the traversal root `g`, repeatedly stepping into
a child of a readable node whose enumeration succeeded reaches `n`, and
`p` collects the display names of the nodes strictly above `n` — so
`p ++ [n.displayName]` is the display-name chain from the root (root
included) down to `n`. -/
inductive Reach : RNode → List String → RNode → Prop where
  | refl (g : RNode) : Reach g [] g
  | child {g : RNode} {p : List String} {n : RNode} (h : Reach g p n)
      (hr : n.readOk = true) (hc : n.childrenOk = true) {c : RNode}
      (hmem : c ∈ n.children) : Reach g (p ++ [n.displayName]) c

/-- C5 (amended): every entry has a non-empty path whose FIRST segment is
the traversal root's display name (the root is included, not excluded);
each entry's path is exactly the display-name chain from the root down to
the entry's own node; and the root itself yields an entry whenever it is
readable and of a menu class. -/
theorem collect_items_paths_include_root (g : RNode) :
    (∀ e ∈ collect_items g, e.path ≠ [] ∧ e.path.head? = some g.displayName)
    ∧ (∀ e ∈ collect_items g, ∃ p n, Reach g p n ∧ e.path = p ++ [n.displayName]
        ∧ e.node = n.nodeid ∧ e.node_class = n.node_class)
    ∧ (g.readOk = true → menuClass g.node_class = true →
        (⟨g.nodeid, g.node_class, [g.displayName], none⟩ : NodeEntry) ∈ collect_items g) := by
  refine ⟨?_, ?_, ?_⟩
  · intro e he
    by_cases hr : g.readOk = true
    case neg =>
      rw [collect_items_unreadable_root g (by simpa using hr)] at he
      simp at he
    case pos =>
      rw [collect_items] at he
      have he' := (List.mem_insertionSort entryLE).1 he
      rw [collectLoop_start g hr] at he'
      refine collectLoop_invariant
        (fun e => e.path ≠ [] ∧ e.path.head? = some g.displayName)
        (fun it => it.2.1 ≠ [] ∧ it.2.1.head? = some g.displayName)
        ?_ _ _ ?_ ?_ e he'
      · intro n p par hQ _
        obtain ⟨hne, hhd⟩ := hQ
        constructor
        · intro _
          exact ⟨by simp, by rw [List.head?_append_of_ne_nil p hne]; exact hhd⟩
        · intro c _ _
          exact ⟨by simp, by rw [List.head?_append_of_ne_nil p hne]; exact hhd⟩
      · intro it hit
        rcases List.mem_map.1 (List.mem_reverse.1 hit) with ⟨c, _, rfl⟩
        exact ⟨by simp, by simp⟩
      · intro e' he''
        by_cases hm : menuClass g.node_class = true
        · simp only [hm, if_true, List.mem_singleton] at he''
          subst he''
          exact ⟨by simp, by simp⟩
        · simp [hm] at he''
  · intro e he
    by_cases hr : g.readOk = true
    case neg =>
      rw [collect_items_unreadable_root g (by simpa using hr)] at he
      simp at he
    case pos =>
      rw [collect_items] at he
      have he' := (List.mem_insertionSort entryLE).1 he
      rw [collectLoop_start g hr] at he'
      refine collectLoop_invariant
        (fun e => ∃ p n, Reach g p n ∧ e.path = p ++ [n.displayName]
          ∧ e.node = n.nodeid ∧ e.node_class = n.node_class)
        (fun it => Reach g it.2.1 it.1)
        ?_ _ _ ?_ ?_ e he'
      · intro n p par hQ hrn
        constructor
        · intro _
          exact ⟨p, n, hQ, rfl, rfl, rfl⟩
        · intro c hc hcok
          exact Reach.child hQ hrn hcok hc
      · intro it hit
        rcases List.mem_map.1 (List.mem_reverse.1 hit) with ⟨c, hc, rfl⟩
        by_cases hco : g.childrenOk = true
        · rw [hco] at hc
          simp only [if_true] at hc
          simpa using Reach.child (Reach.refl g) hr hco hc
        · simp [hco] at hc
      · intro e' he''
        by_cases hm : menuClass g.node_class = true
        · simp only [hm, if_true, List.mem_singleton] at he''
          subst he''
          exact ⟨[], g, Reach.refl g, by simp, rfl, rfl⟩
        · simp [hm] at he''
  · intro hr hm
    rw [collect_items]
    refine (List.mem_insertionSort entryLE).2 ?_
    rw [collectLoop_start g hr]
    obtain ⟨tail, ht⟩ := collectLoop_acc_prefix
      (((if g.childrenOk then g.children else []).map
          (fun c => (c, [g.displayName],
            if g.node_class = NodeClass.Object then some g.nodeid else none))).reverse)
      (if menuClass g.node_class
       then [⟨g.nodeid, g.node_class, [g.displayName], none⟩]
       else [])
    rw [ht]
    simp [hm]

/-- C6 (amended): when the traversal root is a readable Object, the root's
own entry (the only one with a length-1 path) has no `parent_object`, and
EVERY deeper entry — whatever its node class — has one. -/
theorem parent_object_presence (g : RNode) (hr : g.readOk = true)
    (hc : g.node_class = NodeClass.Object) :
    ∀ e ∈ collect_items g,
      (e.path.length = 1 → e.parent_object = none)
      ∧ (1 < e.path.length → e.parent_object ≠ none) := by
  intro e he
  rw [collect_items] at he
  have he' := (List.mem_insertionSort entryLE).1 he
  rw [collectLoop_start g hr] at he'
  refine collectLoop_invariant
      (fun e => (e.path.length = 1 → e.parent_object = none)
        ∧ (1 < e.path.length → e.parent_object ≠ none))
      (fun it => it.2.1 ≠ [] ∧ it.2.2 ≠ none) ?_ _ _ ?_ ?_ e he'
  · intro n p par hQ _
    obtain ⟨hne, hpar⟩ := hQ
    have hlen : 0 < p.length := List.length_pos.2 hne
    constructor
    · intro _
      constructor
      · intro habs
        simp only [List.length_append, List.length_cons, List.length_nil] at habs
        omega
      · intro _; exact hpar
    · intro c _ _
      refine ⟨by simp, ?_⟩
      by_cases ho : n.node_class = NodeClass.Object
      · simp [ho]
      · simpa [ho] using hpar
  · intro it hit
    rcases List.mem_map.1 (List.mem_reverse.1 hit) with ⟨c, _, rfl⟩
    exact ⟨by simp, by simp [hc]⟩
  · intro e' he''
    have hm : menuClass g.node_class = true := by rw [hc]; rfl
    simp only [hm, if_true, List.mem_singleton] at he''
    subst he''
    constructor
    · intro _; rfl
    · intro habs; simp at habs

/-- A readable Object root named "Objects" with no children. -/
def exObjectsRoot : RNode := .mk .Object (some "Objects") "root" true true []

/-- A readable Object root with a single Variable child. -/
def exVarChild : RNode := .mk .Object (some "Objects") "root" true true
  [.mk .Variable (some "Var") "var1" true true []]

/-- C5 counterexample: the traversal root DOES yield an entry, and its
display name IS the (first) segment of that entry's path — the claim's
"root excluded" reading is false on the code. -/
theorem root_entry_included :
    collect_items exObjectsRoot = [⟨"root", NodeClass.Object, ["Objects"], none⟩] := by
  simp [collect_items, collectLoop, exObjectsRoot, RNode.readOk, RNode.childrenOk,
    RNode.children, RNode.displayName, RNode.dispText, RNode.nodeid, RNode.node_class,
    menuClass, List.insertionSort, List.orderedInsert]

/-- Witness for C5 at a concrete graph. -/
theorem collect_items_paths_include_root_witness :
    (⟨"root", NodeClass.Object, ["Objects"], none⟩ : NodeEntry).path ≠ []
    ∧ (⟨"root", NodeClass.Object, ["Objects"], none⟩ : NodeEntry)
        ∈ collect_items exObjectsRoot := by
  have hm := (collect_items_paths_include_root exObjectsRoot).2.2 rfl rfl
  exact ⟨((collect_items_paths_include_root exObjectsRoot).1 _ hm).1, hm⟩

/-- C6 counterexample: a Variable entry (not a Method) carries a
non-`None` `parent_object`, refuting "absent for entries of every other
kind". -/
theorem variable_entry_with_parent :
    (⟨"var1", NodeClass.Variable, ["Objects", "Var"], some "root"⟩ : NodeEntry)
      ∈ collect_items exVarChild
    ∧ NodeClass.Variable ≠ NodeClass.Method := by
  constructor
  · refine (List.mem_insertionSort entryLE).2 ?_
    simp [collectLoop, exVarChild, RNode.readOk, RNode.childrenOk, RNode.children,
      RNode.displayName, RNode.dispText, RNode.nodeid, RNode.node_class, menuClass]
  · decide

/-- Witness for C6 at a concrete graph. -/
theorem parent_object_presence_witness :
    ∃ e ∈ collect_items exVarChild, e.parent_object = none := by
  have hm : (⟨"root", NodeClass.Object, ["Objects"], none⟩ : NodeEntry)
      ∈ collect_items exVarChild := by
    refine (List.mem_insertionSort entryLE).2 ?_
    simp [collectLoop, exVarChild, RNode.readOk, RNode.childrenOk, RNode.children,
      RNode.displayName, RNode.dispText, RNode.nodeid, RNode.node_class, menuClass]
  exact ⟨_, hm, (parent_object_presence exVarChild rfl rfl _ hm).1 rfl⟩

/-- A concrete unreadable node. -/
def badNode : RNode := .mk .Object none "bad" false true []

/-- Witness for C2 at concrete graphs. -/
theorem walk_partial_failure_policy_witness :
    collect_items (.mk .Object (some "Objects") "root" true true ([] ++ badNode :: []))
      = collect_items (.mk .Object (some "Objects") "root" true true ([] ++ []))
    ∧ collect_items (.mk .Variable (some "V") "v1" true false [badNode])
      = (if menuClass .Variable
         then [⟨"v1", .Variable,
           [(RNode.mk .Variable (some "V") "v1" true false [badNode]).displayName], none⟩]
         else [])
    ∧ collect_items badNode = [] :=
  ⟨walk_partial_failure_policy.2.1 .Object (some "Objects") "root" true [] [] badNode rfl,
   walk_partial_failure_policy.2.2.2.1 .Variable (some "V") "v1" [badNode],
   walk_partial_failure_policy.2.2.2.2 badNode rfl⟩

/-! The variant converter, from `_convert_string_to_variant`. -/

/-- The `ua.VariantType` tags the converter distinguishes; every remaining
tag of the enumeration (String, DateTime, ...) is collapsed into `other`,
since the converter treats them all with the same string fallback. -/
inductive VariantType where
  | Int16
  | Int32
  | Int64
  | UInt16
  | UInt32
  | UInt64
  | Float
  | Double
  | Boolean
  | other (tag : Nat)
deriving DecidableEq, Repr

/-- Membership in the tuple of the six integer tags. -/
def intFamily (v : VariantType) : Bool :=
  match v with
  | .Int16 | .Int32 | .Int64 | .UInt16 | .UInt32 | .UInt64 => true
  | _ => false

/-- ASCII whitespace stripped by Python's `int()`/`float()` (the exotic
unicode spaces are not modelled). -/
def isPySpace (c : Char) : Bool :=
  match c with
  | ' ' | '\t' | '\n' | '\r' | '\x0b' | '\x0c' => true
  | _ => false

/-- Strip whitespace from both ends. -/
def stripWS (cs : List Char) : List Char :=
  ((cs.dropWhile isPySpace).reverse.dropWhile isPySpace).reverse

/-- Numeric value of a decimal digit character. -/
def digitVal (c : Char) : Nat := c.toNat - 48

/-- Digit run after a leading digit: further digits, with single
underscores allowed between digits (Python's grouping syntax). -/
def pyDigitsAux : List Char → Nat → Option Nat
  | [], acc => some acc
  | c :: cs, acc =>
    if c.isDigit then pyDigitsAux cs (10 * acc + digitVal c)
    else if c = '_' then
      match cs with
      | c2 :: cs2 =>
        if c2.isDigit then pyDigitsAux cs2 (10 * acc + digitVal c2) else none
      | [] => none
    else none

/-- A non-empty decimal digit string (underscore grouping allowed). -/
def pyDigits : List Char → Option Nat
  | [] => none
  | c :: cs => if c.isDigit then pyDigitsAux cs (digitVal c) else none

/-- Sign handling of `int(text)` on the whitespace-stripped text. -/
def pyIntCore : List Char → Option Int
  | [] => none
  | c :: rest =>
    if c = '+' then (pyDigits rest).map Int.ofNat
    else if c = '-' then (pyDigits rest).map fun k => -(Int.ofNat k)
    else (pyDigits (c :: rest)).map Int.ofNat

/-- Parse as `int(text)` does: optional surrounding whitespace, optional single sign,
base-10 digits.  Arbitrary precision: there is NO range check. -/
def pyIntParse (s : String) : Option Int :=
  pyIntCore (stripWS s.data)

/-- Length of the leading digit run and the remainder. -/
def spanDigits : List Char → Nat × List Char
  | [] => (0, [])
  | c :: rest =>
    if c.isDigit then
      ((spanDigits rest).1 + 1, (spanDigits rest).2)
    else (0, c :: rest)

/-- Exponent tail of a float literal: empty, or `e`/`E`, an optional
sign, and one or more digits. -/
def expTail : List Char → Bool
  | [] => true
  | c :: rest =>
    if c = 'e' || c = 'E' then
      (fun r2 => (spanDigits r2).1 != 0 && (spanDigits r2).2.isEmpty)
        (match rest with
         | c2 :: r => if c2 = '+' || c2 = '-' then r else c2 :: r
         | [] => [])
    else false

/-- Mantissa of a float literal: `d+ [. d*]` or `. d+`, then exponent. -/
def floatBody (cs : List Char) : Bool :=
  match (spanDigits cs).2 with
  | '.' :: r2 =>
    ((spanDigits cs).1 + (spanDigits r2).1 != 0) && expTail (spanDigits r2).2
  | _ => ((spanDigits cs).1 != 0) && expTail (spanDigits cs).2

/-- Models the acceptance condition of Python's built-in `float()`: after
stripping whitespace and an optional sign, `inf`/`infinity`/`nan`
(case-insensitive) or a decimal literal with optional fraction and
exponent (digit-grouping underscores are not modelled).  No claim depends
on this branch of the converter. -/
def pyFloatAccepts (s : String) : Bool :=
  (fun body =>
    (fun low =>
      if low = ['i', 'n', 'f'] || low = ['i', 'n', 'f', 'i', 'n', 'i', 't', 'y']
          || low = ['n', 'a', 'n']
      then true
      else floatBody body)
    (body.map Char.toLower))
  (match stripWS s.data with
   | c :: rest => if c = '+' || c = '-' then rest else c :: rest
   | [] => [])

/-- Lower-casing `text.lower()` (ASCII case folding). -/
def pyLower (s : String) : String := ⟨s.data.map Char.toLower⟩

/-- The Python value the converter returns: an `int`, a `float` (kept as
its accepted source text, floating point being outside the embedding), a
`bool`, or the fallback `str`. -/
inductive PyValue where
  | int (n : Int)
  | float (text : String)
  | bool (b : Bool)
  | str (s : String)
deriving DecidableEq, Repr

/-- The `ValueError` the converter re-raises ("Ungueltiger Wert ..."),
the spec's `ConversionError{kind: InvalidNumber}`. -/
inductive ConvError where
  | invalidNumber
deriving DecidableEq, Repr

/-- The converter `_convert_string_to_variant`: integer family → `int(text)`;
Float/Double → `float(text)`; Boolean → case-insensitive membership in
`("1","true","t","yes","y")`, which never raises; any other tag → the
text unchanged.  A `ValueError` from `int`/`float` becomes the conversion
error. -/
def convert_string_to_variant (text : String) (vtype : VariantType) :
    Except ConvError PyValue :=
  if intFamily vtype then
    match pyIntParse text with
    | some n => .ok (.int n)
    | none => .error .invalidNumber
  else if vtype = .Float || vtype = .Double then
    if pyFloatAccepts text then .ok (.float text) else .error .invalidNumber
  else if vtype = .Boolean then
    .ok (.bool (["1", "true", "t", "yes", "y"].contains (pyLower text)))
  else
    .ok (.str text)

/-- One decimal digit as a character. -/
def pyDigitChar (d : Nat) : Char :=
  match d with
  | 0 => '0'
  | 1 => '1'
  | 2 => '2'
  | 3 => '3'
  | 4 => '4'
  | 5 => '5'
  | 6 => '6'
  | 7 => '7'
  | 8 => '8'
  | _ => '9'

/-- Big-endian decimal digits of a natural number. -/
def decNatChars (n : Nat) : List Char :=
  if _h : n < 10 then [pyDigitChar n]
  else decNatChars (n / 10) ++ [pyDigitChar (n % 10)]
termination_by n
decreasing_by exact Nat.div_lt_self (by omega) (by omega)

/-- Models Python's `str` on an int: a minus sign for negative values,
then the decimal digits of the absolute value. -/
def pyStr (n : Int) : String :=
  if n < 0 then ⟨'-' :: decNatChars n.natAbs⟩ else ⟨decNatChars n.natAbs⟩

theorem pyDigitChar_isDigit (d : Nat) : (pyDigitChar d).isDigit = true := by
  unfold pyDigitChar
  split <;> decide

theorem pyDigitChar_val (d : Nat) (h : d < 10) : digitVal (pyDigitChar d) = d := by
  interval_cases d <;> decide

theorem pyDigitChar_ne_plus (d : Nat) : pyDigitChar d ≠ '+' := by
  unfold pyDigitChar
  split <;> decide

theorem pyDigitChar_ne_minus (d : Nat) : pyDigitChar d ≠ '-' := by
  unfold pyDigitChar
  split <;> decide

theorem decNatChars_digits (n : Nat) : ∀ c ∈ decNatChars n, c.isDigit = true := by
  induction n using Nat.strong_induction_on with
  | _ n ih =>
    rw [decNatChars]
    split
    · intro c hc
      rw [List.mem_singleton] at hc
      subst hc
      exact pyDigitChar_isDigit _
    · intro c hc
      rcases List.mem_append.1 hc with h1 | h2
      · exact ih (n / 10) (Nat.div_lt_self (by omega) (by omega)) c h1
      · rw [List.mem_singleton] at h2
        subst h2
        exact pyDigitChar_isDigit _

theorem decNatChars_head (n : Nat) :
    ∃ d rest, d < 10 ∧ decNatChars n = pyDigitChar d :: rest := by
  induction n using Nat.strong_induction_on with
  | _ n ih =>
    rw [decNatChars]
    split
    · next h => exact ⟨n, [], h, rfl⟩
    · obtain ⟨d, rest, hd, heq⟩ := ih (n / 10) (Nat.div_lt_self (by omega) (by omega))
      exact ⟨d, rest ++ [pyDigitChar (n % 10)], hd, by rw [heq]; rfl⟩

theorem pyDigitsAux_all_digits (cs : List Char) :
    ∀ acc, (∀ c ∈ cs, c.isDigit = true) →
      pyDigitsAux cs acc = some (cs.foldl (fun a c => 10 * a + digitVal c) acc) := by
  induction cs with
  | nil => intro acc _; rfl
  | cons c rest ih =>
    intro acc hall
    have hc := hall c (List.mem_cons_self _ _)
    rw [pyDigitsAux.eq_def]
    simp only [hc, if_true, List.foldl_cons]
    exact ih _ (fun c' h' => hall c' (List.mem_cons_of_mem _ h'))

theorem pyDigits_all_digits (cs : List Char) (hne : cs ≠ [])
    (hall : ∀ c ∈ cs, c.isDigit = true) :
    pyDigits cs = some (cs.foldl (fun a c => 10 * a + digitVal c) 0) := by
  cases cs with
  | nil => exact absurd rfl hne
  | cons c rest =>
    have hc := hall c (List.mem_cons_self _ _)
    simp only [pyDigits, hc, if_true, List.foldl_cons, Nat.mul_zero, Nat.zero_add]
    exact pyDigitsAux_all_digits rest (digitVal c)
      (fun c' h' => hall c' (List.mem_cons_of_mem _ h'))

theorem decNatChars_val (n : Nat) :
    (decNatChars n).foldl (fun a c => 10 * a + digitVal c) 0 = n := by
  induction n using Nat.strong_induction_on with
  | _ n ih =>
    rw [decNatChars]
    split
    · next h =>
      simp only [List.foldl_cons, List.foldl_nil, Nat.mul_zero, Nat.zero_add]
      exact pyDigitChar_val n h
    · next h =>
      rw [List.foldl_append, ih (n / 10) (Nat.div_lt_self (by omega) (by omega))]
      simp only [List.foldl_cons, List.foldl_nil]
      rw [pyDigitChar_val (n % 10) (Nat.mod_lt _ (by omega))]
      omega

theorem decNatChars_ne_nil (n : Nat) : decNatChars n ≠ [] := by
  rw [decNatChars]
  split
  · simp
  · simp

theorem pyDigits_decNatChars (n : Nat) : pyDigits (decNatChars n) = some n := by
  rw [pyDigits_all_digits _ (decNatChars_ne_nil n) (decNatChars_digits n), decNatChars_val]

theorem pyIntCore_minus (l : List Char) :
    pyIntCore ('-' :: l) = (pyDigits l).map fun k => -(Int.ofNat k) := rfl

theorem pyIntCore_nosign (c : Char) (rest : List Char) (h1 : c ≠ '+') (h2 : c ≠ '-') :
    pyIntCore (c :: rest) = (pyDigits (c :: rest)).map Int.ofNat := by
  rw [pyIntCore, if_neg h1, if_neg h2]

theorem dropWhile_all_neg (p : Char → Bool) (cs : List Char)
    (h : ∀ c ∈ cs, p c = false) : cs.dropWhile p = cs := by
  cases cs with
  | nil => rfl
  | cons c rest => simp [List.dropWhile, h c (List.mem_cons_self _ _)]

theorem stripWS_id (cs : List Char) (h : ∀ c ∈ cs, isPySpace c = false) :
    stripWS cs = cs := by
  unfold stripWS
  rw [dropWhile_all_neg _ cs h,
    dropWhile_all_neg _ _ (fun c hc => h c (List.mem_reverse.1 hc)),
    List.reverse_reverse]

theorem isDigit_not_pySpace (c : Char) (h : c.isDigit = true) : isPySpace c = false := by
  unfold isPySpace
  split
  all_goals first
    | rfl
    | exact absurd h (by decide)

/-- Parsing the decimal rendering gives back the integer: `int(str(n)) ==
n` for every `n`, with no range restriction. -/
theorem pyIntParse_pyStr (n : Int) : pyIntParse (pyStr n) = some n := by
  have hnospace : ∀ c ∈ decNatChars n.natAbs, isPySpace c = false :=
    fun c hc => isDigit_not_pySpace c (decNatChars_digits n.natAbs c hc)
  by_cases hn : n < 0
  · have hdata : (pyStr n).data = '-' :: decNatChars n.natAbs := by
      unfold pyStr
      rw [if_pos hn]
    unfold pyIntParse
    rw [hdata, stripWS_id _ ?hns]
    case hns =>
      intro c hc
      rcases List.mem_cons.1 hc with rfl | hc
      · decide
      · exact hnospace c hc
    rw [pyIntCore_minus, pyDigits_decNatChars, Option.map_some']
    congr 1
    simp only [Int.ofNat_eq_coe]
    omega
  · have hdata : (pyStr n).data = decNatChars n.natAbs := by
      unfold pyStr
      rw [if_neg hn]
    obtain ⟨d, rest, _, heq⟩ := decNatChars_head n.natAbs
    unfold pyIntParse
    rw [hdata, stripWS_id _ hnospace, heq,
      pyIntCore_nosign _ _ (pyDigitChar_ne_plus d) (pyDigitChar_ne_minus d), ← heq,
      pyDigits_decNatChars, Option.map_some']
    congr 1
    simp only [Int.ofNat_eq_coe]
    omega

/-- C4 (amended): for every integer-family tag the conversion fails with
the InvalidNumber error exactly on text `int()` cannot parse, and on
parseable text succeeds with the parsed base-10 integer — with NO range
check for the tag's width; consequently `convert(str(n), tag) = n` for
EVERY integer `n`, representable in the tag or not. -/
theorem convert_int_family (v : VariantType) (hv : intFamily v = true) :
    (∀ s : String,
        convert_string_to_variant s v
          = match pyIntParse s with
            | some n => .ok (.int n)
            | none => .error .invalidNumber)
    ∧ (∀ n : Int, convert_string_to_variant (pyStr n) v = .ok (.int n)) := by
  constructor
  · intro s
    unfold convert_string_to_variant
    rw [if_pos hv]
  · intro n
    unfold convert_string_to_variant
    rw [if_pos hv, pyIntParse_pyStr]

/-- C4 counterexample: 100000 is far outside Int16's range (max 32767),
yet the conversion with the Int16 tag succeeds instead of failing — the
code performs no range check. -/
theorem convert_int16_out_of_range_succeeds :
    convert_string_to_variant "100000" .Int16 = .ok (.int 100000)
    ∧ ¬ ((100000 : Int) ≤ 32767) := by
  constructor
  · rfl
  · decide

/-- Witness for C4 at the Int16 tag. -/
theorem convert_int_family_witness :
    convert_string_to_variant "abc" .Int16 = .error .invalidNumber
    ∧ convert_string_to_variant (pyStr 40000) .Int16 = .ok (.int 40000) :=
  ⟨((convert_int_family .Int16 rfl).1 "abc").trans rfl,
   (convert_int_family .Int16 rfl).2 40000⟩

/-- C3: with the Boolean tag the conversion always succeeds and returns
exactly the membership test of the lower-cased text in
`{"1","true","t","yes","y"}`. -/
theorem convert_boolean_never_fails (x : String) :
    convert_string_to_variant x .Boolean
      = .ok (.bool (["1", "true", "t", "yes", "y"].contains (pyLower x)))
    ∧ ((["1", "true", "t", "yes", "y"].contains (pyLower x)) = true
        ↔ pyLower x ∈ ["1", "true", "t", "yes", "y"]) := by
  constructor
  · rfl
  · exact List.elem_iff

/-! Method invocation, from `call_method`. -/

/-- One `ua.Argument` descriptor read from the method's InputArguments
property: its name and its data type; `ua.VariantType(arg.DataType)` is
modelled as carrying the variant tag directly. -/
structure Argument where
  Name : String
  DataType : VariantType
deriving DecidableEq, Repr

/-- How a method invocation ends short of the remote call: the unguarded
re-read of the descriptors raised (model.py only), the count check raised
`ValueError("Argumentanzahl stimmt nicht")`, a conversion raised, or (in
the client revision's controller) the entry had no parent object. -/
inductive CallError where
  | readFailed
  | argumentCountMismatch
  | conversion (e : ConvError)
  | noParent
deriving DecidableEq, Repr

/-- The remote call `uaclient.call_method(parent.nodeid, method.nodeid,
*parsed_args)` that would be issued: an `.ok` of this record means the
invoke IS sent; every `.error` result means no remote call was made. -/
structure InvokeCall where
  parentId : String
  methodId : String
  args : List PyValue
deriving DecidableEq, Repr

/-- Convert each operator text with its descriptor's declared type; the
first conversion error aborts (its `ValueError` propagates). -/
def convertArgs : List (Argument × String) → Except ConvError (List PyValue)
  | [] => .ok []
  | (a, t) :: rest =>
    match convert_string_to_variant t a.DataType with
    | .ok v => (convertArgs rest).map (fun vs => v :: vs)
    | .error e => .error e

/-- Method `OPCUAClientModel.call_method` of model.py: the descriptor read is NOT
guarded — a read failure propagates out of the call — then the count
check, the conversions, and only then the remote invoke. -/
def call_method (parentId methodId : String)
    (inargsRead : Except Unit (List Argument)) (arg_texts : List String) :
    Except CallError InvokeCall :=
  match inargsRead with
  | .error _ => .error .readFailed
  | .ok inargs =>
    if inargs.length ≠ arg_texts.length then .error .argumentCountMismatch
    else
      match convertArgs (inargs.zip arg_texts) with
      | .ok vals => .ok ⟨parentId, methodId, vals⟩
      | .error e => .error (.conversion e)

/-- Method `OPCUAClientModel.call_method` of client/opc_model.py: identical,
except that a failing descriptor read is caught and treated as an empty
descriptor list. -/
def call_method_client (parentId methodId : String)
    (inargsRead : Except Unit (List Argument)) (arg_texts : List String) :
    Except CallError InvokeCall :=
  let inargs := match inargsRead with
    | .ok l => l
    | .error _ => []
  if inargs.length ≠ arg_texts.length then .error .argumentCountMismatch
  else
    match convertArgs (inargs.zip arg_texts) with
    | .ok vals => .ok ⟨parentId, methodId, vals⟩
    | .error e => .error (.conversion e)

/-- Interaction `ClientController._method_interaction` of controller.py: reads the
descriptors (failure caught, empty list), prompts one text per descriptor,
then delegates to model.py's `call_method`, which performs its own
UNGUARDED re-read of the same descriptors; the surrounding try/except
only reports the resulting error to the operator. -/
def method_interaction (parentId methodId : String)
    (inargsRead : Except Unit (List Argument)) (prompt : Argument -> String) :
    Except CallError InvokeCall :=
  let inargs := match inargsRead with
    | .ok l => l
    | .error _ => []
  let arg_texts := inargs.map prompt
  call_method parentId methodId inargsRead arg_texts

/-- Interaction `ClientController._method_interaction` of client/opc_controller.py: a
missing parent object aborts first; the descriptors are read (failure →
empty list), one text is prompted per descriptor, and the client model's
`call_method` re-reads them, this time with the guard. -/
def method_interaction_client (parent : Option String) (methodId : String)
    (inargsRead : Except Unit (List Argument)) (prompt : Argument -> String) :
    Except CallError InvokeCall :=
  match parent with
  | none => .error .noParent
  | some parentId =>
    let inargs := match inargsRead with
      | .ok l => l
      | .error _ => []
    let arg_texts := inargs.map prompt
    call_method_client parentId methodId inargsRead arg_texts

/-- C7: when the operator supplies a number of argument texts different
from the number of descriptors read, both revisions of `call_method` fail
with the count-mismatch error, and no remote invoke is issued (an `.ok`
result being the only way the remote call is made). -/
theorem call_method_count_mismatch (p m : String) (inargs : List Argument)
    (texts : List String) (h : inargs.length ≠ texts.length) :
    call_method p m (.ok inargs) texts = .error .argumentCountMismatch
    ∧ call_method_client p m (.ok inargs) texts = .error .argumentCountMismatch := by
  constructor
  · show (if inargs.length ≠ texts.length then (.error .argumentCountMismatch : Except CallError InvokeCall)
        else match convertArgs (inargs.zip texts) with
          | .ok vals => .ok ⟨p, m, vals⟩
          | .error e => .error (.conversion e)) = .error .argumentCountMismatch
    rw [if_pos h]
  · show (if inargs.length ≠ texts.length then (.error .argumentCountMismatch : Except CallError InvokeCall)
        else match convertArgs (inargs.zip texts) with
          | .ok vals => .ok ⟨p, m, vals⟩
          | .error e => .error (.conversion e)) = .error .argumentCountMismatch
    rw [if_pos h]

/-- Witness for C7: two descriptors, one supplied text. -/
theorem call_method_count_mismatch_witness :
    call_method "p" "m" (.ok [⟨"a", .Int32⟩, ⟨"b", .Int32⟩]) ["1"]
      = .error .argumentCountMismatch
    ∧ call_method_client "p" "m" (.ok [⟨"a", .Int32⟩, ⟨"b", .Int32⟩]) ["1"]
      = .error .argumentCountMismatch :=
  call_method_count_mismatch "p" "m" [⟨"a", .Int32⟩, ⟨"b", .Int32⟩] ["1"] (by decide)

/-- C8 (amended): when reading the input-argument descriptors fails, the
client revision treats the procedure as having zero arguments and
proceeds to the remote invoke with an empty argument list, while the root
revision's interaction fails with the propagated read error and never
reaches the invoke. -/
theorem method_interaction_read_failure (p m : String) (prompt : Argument -> String) :
    method_interaction_client (some p) m (.error ()) prompt = .ok ⟨p, m, []⟩
    ∧ method_interaction p m (.error ()) prompt = .error .readFailed := by
  constructor <;> rfl

/-- C8 counterexample: in the root revision (controller.py + model.py) a
failed descriptor read makes the interaction fail instead of proceeding
to an invocation with zero arguments. -/
theorem method_interaction_read_failure_root :
    method_interaction "p" "m" (.error ()) (fun _ => "") = .error .readFailed
    ∧ method_interaction "p" "m" (.error ()) (fun _ => "") ≠ .ok ⟨"p", "m", []⟩ := by
  constructor
  · rfl
  · exact fun habs => Except.noConfusion habs

/-! Grouping, from `_group_by_child`. -/

/-- The key expression `it.path[1] if len(it.path) > 1 else it.path[0]`;
`none` is the `IndexError` that `path[0]` raises on an empty path. -/
def childKey (path : List String) : Option String :=
  match path with
  | [] => none
  | [x] => some x
  | _ :: y :: _ => some y

/-- The `defaultdict(list)` insertion: append `e` to `k`'s list, preserving
first-seen key order. -/
def addGroup (k : String) (e : NodeEntry) :
    List (String × List NodeEntry) → List (String × List NodeEntry)
  | [] => [(k, [e])]
  | (k', es) :: rest =>
    if k' = k then (k', es ++ [e]) :: rest else (k', es) :: addGroup k e rest

/-- The grouping pass over the entries; `none` is the `IndexError` raised
on the first entry with an empty path. -/
def buildGroups : List NodeEntry → List (String × List NodeEntry)
    → Option (List (String × List NodeEntry))
  | [], acc => some acc
  | e :: es, acc =>
    match childKey e.path with
    | none => none
    | some k => buildGroups es (addGroup k e acc)

/-- Order on groups: by key, ascending. -/
def keyLE (a b : String × List NodeEntry) : Prop := a.1 ≤ b.1

instance : DecidableRel keyLE := fun a b => inferInstanceAs (Decidable (a.1 ≤ b.1))

instance : IsTotal (String × List NodeEntry) keyLE := ⟨fun a b => le_total a.1 b.1⟩

instance : IsTrans (String × List NodeEntry) keyLE := ⟨fun _ _ _ h1 h2 => le_trans h1 h2⟩

/-- Grouping `ClientController._group_by_child`: group the entries by
`path[1]`/`path[0]` into a defaultdict, then rebuild the mapping with the
keys sorted ascending (`for k in sorted(grouped.keys())`); the insertion-
ordered dict is represented as an association list. -/
def group_by_child (items : List NodeEntry) :
    Option (List (String × List NodeEntry)) :=
  (buildGroups items []).map (List.insertionSort keyLE)

/-- Entries stored under key `k` (empty when the key is absent). -/
def lookupGroup (k : String) : List (String × List NodeEntry) → List NodeEntry
  | [] => []
  | (k', es) :: rest => if k' = k then es else lookupGroup k rest

theorem childKey_eq_none (path : List String) : childKey path = none ↔ path = [] := by
  cases path with
  | nil => simp [childKey]
  | cons x rest => cases rest <;> simp [childKey]

theorem lookupGroup_addGroup (k k' : String) (e : NodeEntry)
    (acc : List (String × List NodeEntry)) :
    lookupGroup k (addGroup k' e acc)
      = if k' = k then lookupGroup k acc ++ [e] else lookupGroup k acc := by
  induction acc with
  | nil => by_cases h : k' = k <;> simp [addGroup, lookupGroup, h]
  | cons p rest ih =>
    obtain ⟨q, es⟩ := p
    by_cases h1 : q = k'
    · subst h1
      by_cases h2 : q = k
      · subst h2
        simp [addGroup, lookupGroup]
      · simp [addGroup, lookupGroup, h2]
    · by_cases h2 : q = k
      · subst h2
        have h1s : ¬ (k' = q) := fun hh => h1 hh.symm
        simp [addGroup, lookupGroup, h1, h1s, ih]
      · simp [addGroup, lookupGroup, h1, h2, ih]

theorem mem_keys_addGroup (a k : String) (e : NodeEntry)
    (acc : List (String × List NodeEntry)) :
    a ∈ (addGroup k e acc).map Prod.fst ↔ a ∈ acc.map Prod.fst ∨ a = k := by
  induction acc with
  | nil => simp [addGroup]
  | cons p rest ih =>
    obtain ⟨q, es⟩ := p
    by_cases h1 : q = k <;> simp [addGroup, h1, ih] <;> tauto

theorem nodup_keys_addGroup (k : String) (e : NodeEntry)
    (acc : List (String × List NodeEntry)) (h : (acc.map Prod.fst).Nodup) :
    ((addGroup k e acc).map Prod.fst).Nodup := by
  induction acc with
  | nil => simp [addGroup]
  | cons p rest ih =>
    obtain ⟨q, es⟩ := p
    simp only [List.map_cons, List.nodup_cons] at h
    by_cases h1 : q = k
    · simp only [addGroup, h1, if_true, List.map_cons, List.nodup_cons]
      rw [h1] at h
      exact h
    · simp only [addGroup, h1, if_false, List.map_cons, List.nodup_cons]
      refine ⟨?_, ih h.2⟩
      rw [mem_keys_addGroup]
      push_neg
      exact ⟨h.1, h1⟩

theorem buildGroups_some (es : List NodeEntry) :
    ∀ acc, (∀ e ∈ es, e.path ≠ []) → ∃ r, buildGroups es acc = some r := by
  induction es with
  | nil => intro acc _; exact ⟨acc, rfl⟩
  | cons e rest ih =>
    intro acc hall
    have hne := hall e (List.mem_cons_self _ _)
    obtain ⟨k, hk⟩ : ∃ k, childKey e.path = some k := by
      cases hck : childKey e.path with
      | none => exact absurd ((childKey_eq_none _).1 hck) hne
      | some k => exact ⟨k, rfl⟩
    simp only [buildGroups, hk]
    exact ih _ (fun e' h' => hall e' (List.mem_cons_of_mem _ h'))

theorem buildGroups_lookup (es : List NodeEntry) :
    ∀ acc r, buildGroups es acc = some r →
      ∀ k, lookupGroup k r
        = lookupGroup k acc
            ++ es.filter (fun e => decide (childKey e.path = some k)) := by
  induction es with
  | nil =>
    intro acc r hr k
    simp only [buildGroups, Option.some.injEq] at hr
    subst hr
    simp
  | cons e rest ih =>
    intro acc r hr k
    cases hck : childKey e.path with
    | none => simp [buildGroups, hck] at hr
    | some k' =>
      simp only [buildGroups, hck] at hr
      rw [ih _ _ hr k, lookupGroup_addGroup, List.filter_cons]
      by_cases hkk : k' = k
      · subst hkk
        simp [hck, List.append_assoc]
      · have : ¬ (childKey e.path = some k) := by
          rw [hck]
          exact fun hh => hkk (Option.some.inj hh)
        simp [this, hkk]

theorem buildGroups_nodup (es : List NodeEntry) :
    ∀ acc r, (acc.map Prod.fst).Nodup → buildGroups es acc = some r →
      (r.map Prod.fst).Nodup := by
  induction es with
  | nil =>
    intro acc r h hr
    simp only [buildGroups, Option.some.injEq] at hr
    subst hr
    exact h
  | cons e rest ih =>
    intro acc r h hr
    cases hck : childKey e.path with
    | none => simp [buildGroups, hck] at hr
    | some k =>
      simp only [buildGroups, hck] at hr
      exact ih _ _ (nodup_keys_addGroup k e acc h) hr

theorem lookupGroup_eq_nil_of_not_mem (k : String)
    (g : List (String × List NodeEntry)) (h : k ∉ g.map Prod.fst) :
    lookupGroup k g = [] := by
  induction g with
  | nil => rfl
  | cons p rest ih =>
    obtain ⟨q, es⟩ := p
    simp only [List.map_cons, List.mem_cons] at h
    push_neg at h
    rw [lookupGroup, if_neg (fun hh => h.1 hh.symm)]
    exact ih h.2

theorem lookupGroup_eq_of_mem (k : String) (es : List NodeEntry)
    (g : List (String × List NodeEntry)) (hmem : (k, es) ∈ g)
    (hnd : (g.map Prod.fst).Nodup) : lookupGroup k g = es := by
  induction g with
  | nil => simp at hmem
  | cons p rest ih =>
    obtain ⟨q, es'⟩ := p
    simp only [List.map_cons, List.nodup_cons] at hnd
    rcases List.mem_cons.1 hmem with heq | hmem'
    · injection heq with h1 h2
      subst h1
      subst h2
      simp [lookupGroup]
    · have hq : q ≠ k := by
        intro hqe
        subst hqe
        exact hnd.1 (List.mem_map.2 ⟨(q, es), hmem', rfl⟩)
      rw [lookupGroup, if_neg hq]
      exact ih hmem' hnd.2

theorem lookupGroup_perm (g1 g2 : List (String × List NodeEntry))
    (hp : g1.Perm g2) (hnd : (g1.map Prod.fst).Nodup) (k : String) :
    lookupGroup k g1 = lookupGroup k g2 := by
  by_cases hk : k ∈ g1.map Prod.fst
  · obtain ⟨p, hpmem, hpk⟩ := List.mem_map.1 hk
    obtain ⟨q, es⟩ := p
    cases hpk
    rw [lookupGroup_eq_of_mem _ es g1 hpmem hnd,
      lookupGroup_eq_of_mem _ es g2 (hp.mem_iff.1 hpmem) (((hp.map Prod.fst).nodup_iff).1 hnd)]
  · have hk2 : k ∉ g2.map Prod.fst := fun h => hk (((hp.map Prod.fst).mem_iff).2 h)
    rw [lookupGroup_eq_nil_of_not_mem _ _ hk, lookupGroup_eq_nil_of_not_mem _ _ hk2]

/-- C9 (amended): on every entry list whose entries all have non-empty
paths, `_group_by_child` succeeds and returns the groups sorted ascending
by key with no duplicate key, each group being exactly the sublist of
entries with that key (so in their original relative order), the key
being `path[1]` when the path has more than one segment and `path[0]`
otherwise; an empty entry list yields the empty mapping.  (On an entry
with an empty path the function raises instead — see the
counterexample — so it is NOT total on arbitrary entry lists.) -/
theorem group_by_child_spec (items : List NodeEntry)
    (h : ∀ e ∈ items, e.path ≠ []) :
    ∃ g, group_by_child items = some g
      ∧ List.Sorted keyLE g
      ∧ (g.map Prod.fst).Nodup
      ∧ (∀ k, lookupGroup k g
          = items.filter (fun e => decide (childKey e.path = some k)))
      ∧ (items = [] → g = []) := by
  obtain ⟨r, hr⟩ := buildGroups_some items [] h
  have hnodup : (r.map Prod.fst).Nodup := buildGroups_nodup items [] r (by simp) hr
  refine ⟨List.insertionSort keyLE r, ?_, ?_, ?_, ?_, ?_⟩
  · unfold group_by_child
    rw [hr]
    rfl
  · exact List.sorted_insertionSort keyLE r
  · exact (((List.perm_insertionSort keyLE r).map Prod.fst).nodup_iff).2 hnodup
  · intro k
    rw [lookupGroup_perm (List.insertionSort keyLE r) r (List.perm_insertionSort keyLE r)
        ((((List.perm_insertionSort keyLE r).map Prod.fst).nodup_iff).2 hnodup) k,
      buildGroups_lookup items [] r hr k]
    rfl
  · intro hempty
    subst hempty
    simp only [buildGroups, Option.some.injEq] at hr
    subst hr
    rfl

/-- C9 counterexample: on an entry whose path is empty the Python code
evaluates `it.path[0]` and raises `IndexError` — the function is not
total on every entry list. -/
theorem group_by_child_empty_path_raises :
    group_by_child [⟨"n", NodeClass.Object, [], none⟩] = none := rfl

/-- Witness for C9 at the spec's own example: paths `[A,x]`, `[A,y]`,
`[B]`. -/
theorem group_by_child_spec_witness :
    ∃ g, group_by_child
        [⟨"x1", NodeClass.Variable, ["A", "x"], none⟩,
         ⟨"y1", NodeClass.Variable, ["A", "y"], none⟩,
         ⟨"b1", NodeClass.Object, ["B"], none⟩] = some g
      ∧ List.Sorted keyLE g
      ∧ (g.map Prod.fst).Nodup
      ∧ (∀ k, lookupGroup k g
          = ([⟨"x1", NodeClass.Variable, ["A", "x"], none⟩,
              ⟨"y1", NodeClass.Variable, ["A", "y"], none⟩,
              ⟨"b1", NodeClass.Object, ["B"], none⟩] : List NodeEntry).filter
              (fun e => decide (childKey e.path = some k)))
      ∧ (([⟨"x1", NodeClass.Variable, ["A", "x"], none⟩,
           ⟨"y1", NodeClass.Variable, ["A", "y"], none⟩,
           ⟨"b1", NodeClass.Object, ["B"], none⟩] : List NodeEntry) = [] → g = []) :=
  group_by_child_spec
    [⟨"x1", NodeClass.Variable, ["A", "x"], none⟩,
     ⟨"y1", NodeClass.Variable, ["A", "y"], none⟩,
     ⟨"b1", NodeClass.Object, ["B"], none⟩]
    (by intro e he; fin_cases he <;> simp)

/-! Session lifecycle, from `disconnect`. -/

/-- The model's connection state: `_client` holds the client object
(tagged by its endpoint here) while connected, `None` otherwise. -/
structure ModelState where
  client : Option String
deriving DecidableEq, Repr

/-- Disconnect `OPCUAClientModel.disconnect`: `if self._client: await
self._client.disconnect(); self._client = None`.  The second component
lists the remote disconnect calls issued. -/
def disconnect (s : ModelState) : ModelState × List String :=
  match s.client with
  | some c => (⟨none⟩, [c])
  | none => (s, [])

/-- C10: disconnecting always leaves the stored client reference cleared;
disconnecting with no stored client (before any connect, or again after a
disconnect) issues no remote call, does not fail, and leaves the model in
the same disconnected state. -/
theorem disconnect_idempotent :
    (∀ s : ModelState, ((disconnect s).1).client = none)
    ∧ disconnect ⟨none⟩ = (⟨none⟩, [])
    ∧ (∀ s : ModelState, disconnect (disconnect s).1 = ((disconnect s).1, [])) := by
  refine ⟨?_, rfl, ?_⟩
  · rintro ⟨_ | c⟩ <;> rfl
  · rintro ⟨_ | c⟩ <;> rfl

end Opcua
